import Mathlib

/-!
Shallow embedding of the tunnel-rs renderer (src/main.rs).

Floating-point (`f64`) arithmetic is idealized as exact real arithmetic.
Rust's numeric casts are modelled explicitly:
* `e as u32` / `e as u64` on a float saturates: negative values map to 0,
  values at or above the maximum map to the maximum, otherwise the value is
  truncated; a division of a positive float by `0.0` yields positive
  infinity, which those casts saturate to the maximum.
* `e as i32` on a float truncates toward zero, saturating at the `i32` bounds.
* `e as u32` on an `i32` reinterprets the two's-complement bits, i.e. wraps
  modulo `2^32`; `e as usize` on an `i32` sign-extends and wraps modulo `2^64`.
Machine-integer addition that could overflow is modelled with an explicit wrap.
-/

namespace Tunnel

/-- Constant `WIDTH = 1200` (src/main.rs line 14). -/
def WIDTH : ℕ := 1200

/-- Constant `HEIGHT = 900` (src/main.rs line 15). -/
def HEIGHT : ℕ := 900

/-- Function `generate_texture` (lines 72-81): cell `i` holds
`(x * 256 / width) ^ (y * 256 / height)` with `x = i % width`, `y = i / width`. -/
def generate_texture (width height : ℕ) : List ℕ :=
  (List.range (width * height)).map fun i =>
    ((i % width) * 256 / width) ^^^ ((i / width) * 256 / height)

/-- Rust cast `r as u32` of an `f64` value: saturating truncation into
`[0, 2^32 - 1]`. -/
noncomputable def f64_as_u32 (r : ℝ) : ℕ :=
  if r ≤ 0 then 0 else min (⌊r⌋).toNat (2 ^ 32 - 1)

/-- Rust cast `r as u64` of an `f64` value: saturating truncation into
`[0, 2^64 - 1]`. -/
noncomputable def f64_as_u64 (r : ℝ) : ℕ :=
  if r ≤ 0 then 0 else min (⌊r⌋).toNat (2 ^ 64 - 1)

/-- Rust cast `r as i32` of an `f64` value: truncation toward zero,
saturating at the `i32` bounds. -/
noncomputable def f64_as_i32 (r : ℝ) : ℤ :=
  if r < 0 then max ⌈r⌉ (-(2 ^ 31)) else min ⌊r⌋ (2 ^ 31 - 1)

/-- Rust cast `v as u32` of an `i32` value: two's-complement wrap modulo
`2^32`. -/
def i32_as_u32 (v : ℤ) : ℕ := (v % 2 ^ 32).toNat

/-- Wrapping `i32` arithmetic: normalise an integer into `[-2^31, 2^31)`
modulo `2^32`, as release-mode overflow does. -/
def i32_wrap (z : ℤ) : ℤ := (z + 2 ^ 31) % 2 ^ 32 - 2 ^ 31

/-- Rust cast `v as usize` of an `i32` value (64-bit target): sign-extend
and wrap modulo `2^64`. -/
def int_as_usize (z : ℤ) : ℕ := (z % 2 ^ 64).toNat

/-- Model of `f64::atan2`: `y.atan2(x)` is the argument of the point
`(x, y)`, lying in `(-π, π]`. -/
noncomputable def atan2 (y x : ℝ) : ℝ := Complex.arg ⟨x, y⟩

/-- One distance-table entry (lines 110-111): with
`sq_sum = (xf - cx)*(xf - cx) + (yf - cy)*(yf - cy)`, the entry is
`(ratio * th / sq_sum.sqrt()) as u32 % th` where `ratio = 64.0`.
When `sq_sum = 0`, the `f64` division yields positive infinity and the
`as u32` cast saturates to `2^32 - 1`. -/
noncomputable def distance_entry (cx cy : ℝ) (th : ℕ) (x y : ℕ) : ℕ :=
  let sq_sum : ℝ := ((x : ℝ) - cx) * ((x : ℝ) - cx) + ((y : ℝ) - cy) * ((y : ℝ) - cy)
  (if sq_sum = 0 then 2 ^ 32 - 1 else f64_as_u32 (64 * (th : ℝ) / Real.sqrt sq_sum)) % th

/-- One angle-table entry (line 112):
`((0.5 * tw * (yf - cy).atan2(xf - cx) / PI) as i32) as u32`.
Note that the source performs no reduction modulo `tw` here. -/
noncomputable def angle_entry (cx cy : ℝ) (tw : ℕ) (x y : ℕ) : ℕ :=
  i32_as_u32 (f64_as_i32 (0.5 * (tw : ℝ) * atan2 ((y : ℝ) - cy) ((x : ℝ) - cx) / Real.pi))

/-- The `World` state (lines 17-24); the `f64` clock is an exact real. -/
structure World where
  tex_width : ℕ
  tex_height : ℕ
  texture : List ℕ
  distances : List (List ℕ)
  angles : List (List ℕ)
  clock : ℝ

/-- Constructor `World::new` (lines 92-126). The wall-clock reading `now()`
is the one external input and is taken as the parameter `clock0`. The table
loops fill `distances[y][x]` and `angles[y][x]` for `y < HEIGHT * 2`,
`x < WIDTH * 2`, with center `(WIDTH, HEIGHT)` and texture size 256. -/
noncomputable def World.new (clock0 : ℝ) : World where
  tex_width := 256
  tex_height := 256
  texture := generate_texture 256 256
  distances := (List.range (HEIGHT * 2)).map fun y =>
    (List.range (WIDTH * 2)).map fun x => distance_entry (WIDTH : ℝ) (HEIGHT : ℝ) 256 x y
  angles := (List.range (HEIGHT * 2)).map fun y =>
    (List.range (WIDTH * 2)).map fun x => angle_entry (WIDTH : ℝ) (HEIGHT : ℝ) 256 x y
  clock := clock0

/-- Read `grid[y][x]` of a nested vector; out-of-range reads default to the
empty row / 0 (all verified accesses are in bounds). -/
def idx2 (g : List (List ℕ)) (y x : ℕ) : ℕ := (g.getD y []).getD x 0

/-- Texture-coordinate computation `(entry as u64 + shift) % m` (lines 160
and 162): the `u64` addition wraps modulo `2^64` before the reduction
modulo `m`. -/
def tex_coord (m entry shift : ℕ) : ℕ := ((entry + shift) % 2 ^ 64) % m

/-- The flat texture index `tex_y * tex_width + tex_x` computed for output
pixel `j` in `render_band` (lines 156-163). -/
def tex_index (w : World) (shift shift_look : ℕ × ℕ) (j : ℕ) : ℕ :=
  let x := j % WIDTH
  let y := j / WIDTH
  let dist := idx2 w.distances (y + shift_look.2) (x + shift_look.1)
  let tex_x := tex_coord w.tex_width dist shift.1
  let angle := idx2 w.angles (y + shift_look.2) (x + shift_look.1)
  let tex_y := tex_coord w.tex_height angle shift.2
  tex_y * w.tex_width + tex_x

/-- The four RGBA bytes written for output pixel `j` (lines 164-166):
`[0, color as u8, 0, 0xff]`. -/
def render_pixel (w : World) (shift shift_look : ℕ × ℕ) (j : ℕ) : List ℕ :=
  [0, w.texture.getD (tex_index w shift shift_look j) 0 % 256, 0, 255]

/-- Function `render_band` (lines 148-168): a band of `len` pixels starting
at global pixel offset `offset` (the loop variable `i` enumerates the band's
pixels and `j = i + offset`). -/
def render_band (w : World) (shift shift_look : ℕ × ℕ) (offset len : ℕ) : List ℕ :=
  (List.range len).flatMap fun i => render_pixel w shift shift_look (i + offset)

/-- The banded frame (lines 142-185): a frame of `total` pixels is split by
`chunks_mut` into chunks of `c` pixels (the last chunk may be shorter), and
band `i` starts at pixel offset `i * c`. -/
def draw_banded (w : World) (shift shift_look : ℕ × ℕ) (total c : ℕ) : List ℕ :=
  (List.range ((total + c - 1) / c)).flatMap fun i =>
    render_band w shift shift_look (i * c) (min c (total - i * c))

/-- View-bob x offset (lines 136 and 139):
`(WIDTH as i32 / 2 + ((WIDTH / 2) as f64 * clock.sin()) as i32) as usize`. -/
noncomputable def shift_look_x (t : ℝ) : ℕ :=
  int_as_usize (i32_wrap ((WIDTH : ℤ) / 2 + f64_as_i32 (((WIDTH / 2 : ℕ) : ℝ) * Real.sin t)))

/-- View-bob y offset (lines 137 and 140):
`(HEIGHT as i32 / 2 + ((HEIGHT / 2) as f64 * (clock * 2.0).sin()) as i32) as usize`. -/
noncomputable def shift_look_y (t : ℝ) : ℕ :=
  int_as_usize (i32_wrap ((HEIGHT : ℤ) / 2 + f64_as_i32 (((HEIGHT / 2 : ℕ) : ℝ) * Real.sin (t * 2))))

/-- Method `World::draw` (lines 132-186): scroll shifts from the clock,
view-bob offsets, 20 threads giving `rows_per_band = HEIGHT / 20 + 1`, and
the banded render of the `WIDTH * HEIGHT`-pixel frame. -/
noncomputable def World.draw (w : World) : List ℕ :=
  let shift_x := f64_as_u64 ((w.tex_width : ℝ) * w.clock * 0.5)
  let shift_y := f64_as_u64 ((w.tex_height : ℝ) * w.clock * 0.1)
  let rows_per_band := HEIGHT / 20 + 1
  draw_banded w (shift_x, shift_y) (shift_look_x w.clock, shift_look_y w.clock)
    (WIDTH * HEIGHT) (rows_per_band * WIDTH)

/-- A tiny concrete world used by witnesses. -/
noncomputable def W0 : World where
  tex_width := 2
  tex_height := 2
  texture := [7, 9, 11, 13]
  distances := [[0, 1], [1, 0]]
  angles := [[1, 0], [0, 1]]
  clock := 0

/-- A second world with the same field values as `W0`. -/
noncomputable def W0' : World where
  tex_width := 2
  tex_height := 2
  texture := [7, 9, 11, 13]
  distances := [[0, 1], [1, 0]]
  angles := [[1, 0], [0, 1]]
  clock := 0

/-! ## Helper lemmas -/

/-- Reading an element of a map over `List.range` with the default. -/
theorem getD_map_range {α : Type} (f : ℕ → α) (d : α) {n i : ℕ} (h : i < n) :
    ((List.range n).map f).getD i d = f i := by
  rw [List.getD_eq_getElem _ _ (by simpa using h)]
  simp

/-- Reading a cell of a table built as a nested map over `List.range`. -/
theorem idx2_table (f : ℕ → ℕ → ℕ) {rows cols y x : ℕ} (hy : y < rows) (hx : x < cols) :
    idx2 ((List.range rows).map fun y => (List.range cols).map fun x => f x y) y x = f x y := by
  unfold idx2
  rw [getD_map_range _ _ hy, getD_map_range _ _ hx]

/-! ## C4: generate_texture -/

/-- C4: for positive `width` and `height`, `generate_texture width height`
has exactly `width * height` cells; cell `(x, y)` (row-major index
`y * width + x`) equals `(x * 256 / width) ^^^ (y * 256 / height)`; every
cell value lies in `[0, 255]`; and `generate_texture 4 4` has value 192 at
cell `(1, 2)`. -/
theorem generate_texture_spec (width height : ℕ) (hw : 0 < width) (hh : 0 < height) :
    (generate_texture width height).length = width * height ∧
    (∀ x y, x < width → y < height →
      (generate_texture width height).getD (y * width + x) 0
        = (x * 256 / width) ^^^ (y * 256 / height)) ∧
    (∀ i, i < width * height → (generate_texture width height).getD i 0 ≤ 255) ∧
    (generate_texture 4 4).getD (2 * 4 + 1) 0 = 192 := by
  refine ⟨by simp [generate_texture], ?_, ?_, by decide⟩
  · intro x y hx hy
    have hi : y * width + x < width * height := by
      calc y * width + x < (y + 1) * width := by
            rw [Nat.succ_mul]; omega
        _ ≤ height * width := Nat.mul_le_mul_right _ (by omega)
        _ = width * height := Nat.mul_comm _ _
    rw [generate_texture, getD_map_range _ _ hi]
    have hmod : (y * width + x) % width = x := by
      rw [Nat.mul_comm, Nat.mul_add_mod, Nat.mod_eq_of_lt hx]
    have hdiv : (y * width + x) / width = y := by
      rw [Nat.mul_comm, Nat.mul_add_div hw, Nat.div_eq_of_lt hx, Nat.add_zero]
    rw [hmod, hdiv]
  · intro i hi
    rw [generate_texture, getD_map_range _ _ hi]
    have h1 : i % width * 256 / width < 2 ^ 8 := by
      rw [Nat.div_lt_iff_lt_mul hw]
      have hm := Nat.mod_lt i hw
      omega
    have h2 : i / width * 256 / height < 2 ^ 8 := by
      rw [Nat.div_lt_iff_lt_mul hh]
      have hd : i / width < height := by
        rw [Nat.div_lt_iff_lt_mul hw, Nat.mul_comm height width]
        exact hi
      omega
    have hx := Nat.xor_lt_two_pow h1 h2
    omega

/-- Witness for C4 at `width = height = 4`. -/
theorem generate_texture_spec_witness :
    0 < 4 ∧ 0 < 4 ∧
      ((generate_texture 4 4).length = 4 * 4 ∧
       (∀ x y, x < 4 → y < 4 →
         (generate_texture 4 4).getD (y * 4 + x) 0 = (x * 256 / 4) ^^^ (y * 256 / 4)) ∧
       (∀ i, i < 4 * 4 → (generate_texture 4 4).getD i 0 ≤ 255) ∧
       (generate_texture 4 4).getD (2 * 4 + 1) 0 = 192) :=
  ⟨by decide, by decide, generate_texture_spec 4 4 (by decide) (by decide)⟩

/-! ## C9: texture-coordinate wrap -/

/-- C9: for any stored entry and any accumulated 64-bit scroll shift
(arbitrarily large), the renderer's texture coordinate
`(entry + shift) mod m` lies in `[0, m)` whenever the texture dimension `m`
is positive — in the program `m` is `tex_width = tex_height = 256`. -/
theorem tex_coord_lt (m entry shift : ℕ) (hm : 0 < m) :
    tex_coord m entry shift < m := Nat.mod_lt _ hm

/-- Witness for C9 at `m = 256` with a huge accumulated shift. -/
theorem tex_coord_lt_witness :
    0 < 256 ∧ tex_coord 256 5 (2 ^ 70 + 3) < 256 :=
  ⟨by decide, tex_coord_lt 256 5 (2 ^ 70 + 3) (by decide)⟩

/-! ## Projection-table lemmas -/

/-- The wrap `i32 → u32` always lands in `[0, 2^32)`. -/
theorem i32_as_u32_lt (v : ℤ) : i32_as_u32 v < 2 ^ 32 := by
  unfold i32_as_u32
  have h1 : v % 2 ^ 32 < 2 ^ 32 := Int.emod_lt_of_pos v (by norm_num)
  have h2 : 0 ≤ v % 2 ^ 32 := Int.emod_nonneg v (by norm_num)
  omega

/-- Every distance entry is reduced modulo `th` at construction. -/
theorem distance_entry_lt (cx cy : ℝ) (th : ℕ) (hth : 0 < th) (x y : ℕ) :
    distance_entry cx cy th x y < th := by
  unfold distance_entry
  exact Nat.mod_lt _ hth

set_option maxRecDepth 10000 in
/-- Reading the distance table built by `World::new`. -/
theorem new_distances_idx (t : ℝ) {x y : ℕ} (hx : x < WIDTH * 2) (hy : y < HEIGHT * 2) :
    idx2 (World.new t).distances y x = distance_entry (WIDTH : ℝ) (HEIGHT : ℝ) 256 x y := by
  show idx2 ((List.range (HEIGHT * 2)).map fun y =>
      (List.range (WIDTH * 2)).map fun x =>
        distance_entry (WIDTH : ℝ) (HEIGHT : ℝ) 256 x y) y x = _
  exact idx2_table _ hy hx

set_option maxRecDepth 10000 in
/-- Reading the angle table built by `World::new`. -/
theorem new_angles_idx (t : ℝ) {x y : ℕ} (hx : x < WIDTH * 2) (hy : y < HEIGHT * 2) :
    idx2 (World.new t).angles y x = angle_entry (WIDTH : ℝ) (HEIGHT : ℝ) 256 x y := by
  show idx2 ((List.range (HEIGHT * 2)).map fun y =>
      (List.range (WIDTH * 2)).map fun x =>
        angle_entry (WIDTH : ℝ) (HEIGHT : ℝ) 256 x y) y x = _
  exact idx2_table _ hy hx

/-- If the raw angle value lies in `(-128, -64]`, the stored entry (the
truncated value cast `i32 → u32`) is at least `2^32 - 127`. -/
theorem angle_entry_of_neg (cx cy : ℝ) (tw x y : ℕ)
    (h1 : 0.5 * (tw : ℝ) * atan2 ((y : ℝ) - cy) ((x : ℝ) - cx) / Real.pi ≤ -64)
    (h2 : (-128 : ℝ) < 0.5 * (tw : ℝ) * atan2 ((y : ℝ) - cy) ((x : ℝ) - cx) / Real.pi) :
    2 ^ 32 - 127 ≤ angle_entry cx cy tw x y := by
  unfold angle_entry
  set r := 0.5 * (tw : ℝ) * atan2 ((y : ℝ) - cy) ((x : ℝ) - cx) / Real.pi with hr
  have hneg : r < 0 := lt_of_le_of_lt h1 (by norm_num)
  have hceil1 : ⌈r⌉ ≤ -64 := Int.ceil_le.mpr (by exact_mod_cast h1)
  have hceil2 : (-128 : ℤ) < ⌈r⌉ := by
    have hle := Int.le_ceil r
    have h : (-128 : ℝ) < (⌈r⌉ : ℝ) := lt_of_lt_of_le h2 hle
    exact_mod_cast h
  have hf : f64_as_i32 r = ⌈r⌉ := by
    unfold f64_as_i32
    rw [if_pos hneg]
    exact max_eq_left (by omega)
  rw [hf]
  unfold i32_as_u32
  omega

/-- The angle argument at table cell `(0, 0)` equals `arcsin (3/5) - π`. -/
theorem atan2_cell00 :
    atan2 (((0 : ℕ) : ℝ) - ((HEIGHT : ℕ) : ℝ)) (((0 : ℕ) : ℝ) - ((WIDTH : ℕ) : ℝ))
      = Real.arcsin (3 / 5) - Real.pi := by
  have hy : (((0 : ℕ) : ℝ) - ((HEIGHT : ℕ) : ℝ)) = -900 := by norm_num [HEIGHT]
  have hx : (((0 : ℕ) : ℝ) - ((WIDTH : ℕ) : ℝ)) = -1200 := by norm_num [WIDTH]
  rw [hy, hx]
  unfold atan2
  rw [Complex.arg_of_re_neg_of_im_neg (show ((-1200 : ℝ)) < 0 by norm_num)
    (show ((-900 : ℝ)) < 0 by norm_num)]
  have him : (-(⟨-1200, -900⟩ : ℂ)).im = (900 : ℝ) := by
    have h : (-(⟨-1200, -900⟩ : ℂ)).im = -(-900 : ℝ) := rfl
    rw [h]; norm_num
  have habs : Complex.abs ⟨-1200, -900⟩ = 1500 := by
    rw [Complex.abs_apply, Complex.normSq_mk]
    rw [show ((-1200 : ℝ) * -1200 + (-900 : ℝ) * -900) = 1500 ^ 2 by norm_num]
    exact Real.sqrt_sq (by norm_num)
  rw [him, habs]
  norm_num

/-! ## C1: table entry ranges -/

/-- C1 (amended): in the table built by `World::new`, every distance entry
lies in `[0, TH) = [0, 256)`, while angle entries are NOT reduced modulo
`TW`: the truncated (toward zero) angle value is cast `i32 → u32`, wrapping
modulo `2^32`, so angle entries only satisfy `[0, 2^32)`. -/
theorem projection_table_ranges (t : ℝ) (x y : ℕ)
    (hx : x < WIDTH * 2) (hy : y < HEIGHT * 2) :
    idx2 (World.new t).distances y x < 256 ∧
    idx2 (World.new t).angles y x < 2 ^ 32 := by
  rw [new_distances_idx t hx hy, new_angles_idx t hx hy]
  exact ⟨distance_entry_lt _ _ 256 (by norm_num) x y, i32_as_u32_lt _⟩

/-- Witness for C1's amended range theorem at cell `(0, 0)`, `t = 0`. -/
theorem projection_table_ranges_witness :
    0 < WIDTH * 2 ∧ 0 < HEIGHT * 2 ∧
      (idx2 (World.new 0).distances 0 0 < 256 ∧
       idx2 (World.new 0).angles 0 0 < 2 ^ 32) :=
  ⟨by norm_num [WIDTH], by norm_num [HEIGHT],
    projection_table_ranges 0 0 0 (by norm_num [WIDTH]) (by norm_num [HEIGHT])⟩

/-- C1 counterexample: the angle entry at cell `(0, 0)` of the constructed
table does not lie in `[0, TW) = [0, 256)` — the negative truncated angle
wraps to a value of at least `2^32 - 127`. -/
theorem angle_entry_out_of_range : ¬ idx2 (World.new 0).angles 0 0 < 256 := by
  rw [new_angles_idx 0 (by norm_num [WIDTH]) (by norm_num [HEIGHT])]
  intro hlt
  have hπ := Real.pi_pos
  have hs1 : Real.arcsin (3 / 5) ≤ Real.pi / 2 := Real.arcsin_le_pi_div_two _
  have hs2 : 0 < Real.arcsin (3 / 5) := Real.arcsin_pos.mpr (by norm_num)
  have hkey : 2 ^ 32 - 127 ≤ angle_entry (WIDTH : ℝ) (HEIGHT : ℝ) 256 0 0 := by
    apply angle_entry_of_neg
    · rw [atan2_cell00, div_le_iff₀ hπ]
      push_cast
      linarith
    · rw [atan2_cell00, lt_div_iff₀ hπ]
      push_cast
      linarith
  omega

/-! ## C3: center-pixel safety -/

/-- The distance entry at the exact projection center `(WIDTH, HEIGHT)`:
`sq_sum = 0`, the division yields infinity, the saturating cast gives
`2^32 - 1`, and reduction modulo 256 stores `255`. -/
theorem distance_entry_center (t : ℝ) :
    idx2 (World.new t).distances HEIGHT WIDTH = 255 := by
  rw [new_distances_idx t (by norm_num [WIDTH]) (by norm_num [HEIGHT])]
  unfold distance_entry
  norm_num

/-- C3: a sampling window that includes the exact projection center is
safe: the table construction yields the defined entry `255` at the center
cell (via the saturating cast of the infinite distance), and every rendered
pixel's green channel (byte 1 of its RGBA quadruple) is a defined value in
`[0, 255]`. -/
theorem center_pixel_safe (t : ℝ) (shift shift_look : ℕ × ℕ) (j : ℕ) :
    idx2 (World.new t).distances HEIGHT WIDTH = 255 ∧
    (render_pixel (World.new t) shift shift_look j).getD 1 0 ≤ 255 := by
  refine ⟨distance_entry_center t, ?_⟩
  have h : (render_pixel (World.new t) shift shift_look j).getD 1 0
      = (World.new t).texture.getD (tex_index (World.new t) shift shift_look j) 0 % 256 := rfl
  rw [h]
  have hm := Nat.mod_lt
    ((World.new t).texture.getD (tex_index (World.new t) shift shift_look j) 0)
    (show 0 < 256 by norm_num)
  omega

/-! ## C5: distance formula away from the center -/

/-- C5: for every grid cell other than the exact center, the stored
distance entry equals `floor(ratio * TH / sqrt((x - cx)^2 + (y - cy)^2)) mod TH`
with `ratio = 64`, `TH = 256` and center `(cx, cy) = (WIDTH, HEIGHT)`. -/
theorem distance_entry_formula (t : ℝ) (x y : ℕ)
    (hx : x < WIDTH * 2) (hy : y < HEIGHT * 2) (hc : ¬(x = WIDTH ∧ y = HEIGHT)) :
    idx2 (World.new t).distances y x
      = (⌊64 * (256 : ℝ) /
          Real.sqrt (((x : ℝ) - (WIDTH : ℝ)) ^ 2 + ((y : ℝ) - (HEIGHT : ℝ)) ^ 2)⌋).toNat
        % 256 := by
  rw [new_distances_idx t hx hy]
  unfold distance_entry
  dsimp only
  set a : ℤ := (x : ℤ) - (WIDTH : ℤ) with ha
  set b : ℤ := (y : ℤ) - (HEIGHT : ℤ) with hb
  have hab : 1 ≤ a * a + b * b := by
    have h1 : a ≠ 0 ∨ b ≠ 0 := by
      by_contra h
      push_neg at h
      exact hc ⟨by have := h.1; omega, by have := h.2; omega⟩
    rcases h1 with h | h
    · nlinarith [Int.one_le_abs h, abs_mul_abs_self a, mul_self_nonneg b]
    · nlinarith [Int.one_le_abs h, abs_mul_abs_self b, mul_self_nonneg a]
  have hsreal : ((x : ℝ) - (WIDTH : ℝ)) * ((x : ℝ) - (WIDTH : ℝ))
        + ((y : ℝ) - (HEIGHT : ℝ)) * ((y : ℝ) - (HEIGHT : ℝ))
      = ((a * a + b * b : ℤ) : ℝ) := by
    rw [ha, hb]; push_cast; ring
  have hs1 : (1 : ℝ) ≤ ((x : ℝ) - (WIDTH : ℝ)) * ((x : ℝ) - (WIDTH : ℝ))
      + ((y : ℝ) - (HEIGHT : ℝ)) * ((y : ℝ) - (HEIGHT : ℝ)) := by
    rw [hsreal]; exact_mod_cast hab
  have hs0 : ((x : ℝ) - (WIDTH : ℝ)) * ((x : ℝ) - (WIDTH : ℝ))
      + ((y : ℝ) - (HEIGHT : ℝ)) * ((y : ℝ) - (HEIGHT : ℝ)) ≠ 0 :=
    ne_of_gt (by linarith)
  rw [if_neg hs0]
  have hss : (((x : ℝ) - (WIDTH : ℝ)) ^ 2 + ((y : ℝ) - (HEIGHT : ℝ)) ^ 2)
      = ((x : ℝ) - (WIDTH : ℝ)) * ((x : ℝ) - (WIDTH : ℝ))
        + ((y : ℝ) - (HEIGHT : ℝ)) * ((y : ℝ) - (HEIGHT : ℝ)) := by ring
  rw [hss]
  have hsqrt1 : (1 : ℝ) ≤ Real.sqrt (((x : ℝ) - (WIDTH : ℝ)) * ((x : ℝ) - (WIDTH : ℝ))
      + ((y : ℝ) - (HEIGHT : ℝ)) * ((y : ℝ) - (HEIGHT : ℝ))) := by
    have hm := Real.sqrt_le_sqrt hs1
    rwa [Real.sqrt_one] at hm
  have hsqrtpos : 0 < Real.sqrt (((x : ℝ) - (WIDTH : ℝ)) * ((x : ℝ) - (WIDTH : ℝ))
      + ((y : ℝ) - (HEIGHT : ℝ)) * ((y : ℝ) - (HEIGHT : ℝ))) := by linarith
  have hrpos : 0 < 64 * ((256 : ℕ) : ℝ) / Real.sqrt (((x : ℝ) - (WIDTH : ℝ)) * ((x : ℝ) - (WIDTH : ℝ))
      + ((y : ℝ) - (HEIGHT : ℝ)) * ((y : ℝ) - (HEIGHT : ℝ))) := by positivity
  unfold f64_as_u32
  rw [if_neg (not_le.mpr hrpos)]
  have hle : 64 * ((256 : ℕ) : ℝ) / Real.sqrt (((x : ℝ) - (WIDTH : ℝ)) * ((x : ℝ) - (WIDTH : ℝ))
      + ((y : ℝ) - (HEIGHT : ℝ)) * ((y : ℝ) - (HEIGHT : ℝ))) ≤ 16384 := by
    rw [div_le_iff₀ hsqrtpos]
    push_cast
    nlinarith [hsqrt1]
  have hfle : ⌊64 * ((256 : ℕ) : ℝ) / Real.sqrt (((x : ℝ) - (WIDTH : ℝ)) * ((x : ℝ) - (WIDTH : ℝ))
      + ((y : ℝ) - (HEIGHT : ℝ)) * ((y : ℝ) - (HEIGHT : ℝ)))⌋ ≤ 16384 := by
    have hmono := Int.floor_le_floor hle
    simpa using hmono
  rw [min_eq_left (by omega)]
  norm_num

/-- Witness for C5 at cell `(0, 0)`, `t = 0`. -/
theorem distance_entry_formula_witness :
    (0 < WIDTH * 2 ∧ 0 < HEIGHT * 2 ∧ ¬((0 : ℕ) = WIDTH ∧ (0 : ℕ) = HEIGHT)) ∧
      idx2 (World.new 0).distances 0 0
        = (⌊64 * (256 : ℝ) /
            Real.sqrt ((((0 : ℕ) : ℝ) - (WIDTH : ℝ)) ^ 2
              + (((0 : ℕ) : ℝ) - (HEIGHT : ℝ)) ^ 2)⌋).toNat % 256 :=
  ⟨⟨by norm_num [WIDTH], by norm_num [HEIGHT], by simp [WIDTH]⟩,
    distance_entry_formula 0 0 0 (by norm_num [WIDTH]) (by norm_num [HEIGHT])
      (by simp [WIDTH])⟩

/-! ## C2: the small concrete scenario -/

/-- The angle argument in the C2 scenario: `atan2 (-1) (-1) = π/4 - π`. -/
theorem atan2_neg_one :
    atan2 (((0 : ℕ) : ℝ) - 1) (((0 : ℕ) : ℝ) - 1) = Real.pi / 4 - Real.pi := by
  have h0 : (((0 : ℕ) : ℝ) - 1) = -1 := by norm_num
  rw [h0]
  unfold atan2
  rw [Complex.arg_of_re_neg_of_im_neg (show ((-1 : ℝ)) < 0 by norm_num)
    (show ((-1 : ℝ)) < 0 by norm_num)]
  have him : (-(⟨-1, -1⟩ : ℂ)).im = (1 : ℝ) := by
    have h : (-(⟨-1, -1⟩ : ℂ)).im = -(-1 : ℝ) := rfl
    rw [h]; norm_num
  have habs : Complex.abs ⟨-1, -1⟩ = Real.sqrt 2 := by
    rw [Complex.abs_apply, Complex.normSq_mk]
    norm_num
  rw [him, habs]
  have h1 : (1 : ℝ) / Real.sqrt 2 = Real.sqrt 2 / 2 := by
    rw [div_eq_div_iff (Real.sqrt_ne_zero'.mpr (by norm_num)) (by norm_num : (2 : ℝ) ≠ 0),
      one_mul]
    exact (Real.mul_self_sqrt (by norm_num)).symm
  rw [h1, ← Real.sin_pi_div_four]
  have hπ := Real.pi_pos
  rw [Real.arcsin_sin (by linarith) (by linarith)]

/-- The raw angle value in the C2 scenario equals `-(3/4)`. -/
theorem angle_value_c2 :
    0.5 * ((2 : ℕ) : ℝ) * atan2 (((0 : ℕ) : ℝ) - 1) (((0 : ℕ) : ℝ) - 1) / Real.pi
      = -(3 / 4) := by
  rw [atan2_neg_one]
  have hπ := Real.pi_ne_zero
  push_cast
  field_simp
  ring

/-- Evaluation of the C2 angle entry: the truncating cast sends `-0.75`
to `0`. -/
theorem angle_entry_c2_eq : angle_entry 1 1 2 0 0 = 0 := by
  unfold angle_entry
  rw [angle_value_c2]
  unfold f64_as_i32
  rw [if_pos (by norm_num)]
  have hc : ⌈(-(3 / 4) : ℝ)⌉ = 0 := by
    rw [Int.ceil_neg]
    norm_num [Int.floor_eq_iff]
  rw [hc]
  norm_num [i32_as_u32]

/-- Evaluation of the C2 distance entry: `floor(128 / sqrt 2) = 90`,
reduced modulo 2 to `0`. -/
theorem distance_entry_c2_eq : distance_entry 1 1 2 0 0 = 0 := by
  unfold distance_entry
  dsimp only
  have hsq : ((((0 : ℕ) : ℝ) - 1) * (((0 : ℕ) : ℝ) - 1)
      + ((((0 : ℕ) : ℝ)) - 1) * ((((0 : ℕ) : ℝ)) - 1)) = 2 := by norm_num
  rw [hsq, if_neg (by norm_num)]
  unfold f64_as_u32
  have hs2 : Real.sqrt 2 < 1.4143 := (Real.sqrt_lt' (by norm_num)).mpr (by norm_num)
  have hs3 : (1.414 : ℝ) ≤ Real.sqrt 2 := (Real.le_sqrt' (by norm_num)).mpr (by norm_num)
  have hspos : (0 : ℝ) < Real.sqrt 2 := by linarith
  have hrpos : 0 < 64 * ((2 : ℕ) : ℝ) / Real.sqrt 2 := by positivity
  rw [if_neg (not_le.mpr hrpos)]
  have hfloor : ⌊64 * ((2 : ℕ) : ℝ) / Real.sqrt 2⌋ = 90 := by
    rw [Int.floor_eq_iff]
    constructor
    · rw [le_div_iff₀ hspos]; push_cast; linarith
    · rw [div_lt_iff₀ hspos]; push_cast; linarith
  rw [hfloor]
  norm_num
  decide

/-- C2 counterexample: in the stated scenario (`W = H = 2`, `TW = TH = 2`,
`ratio = 64`, center `(1, 1)`, cell `(0, 0)`) the computed angle entry is
NOT 1: the code truncates `-0.75` toward zero instead of flooring and
taking a true modulo. -/
theorem c2_angle_not_one : ¬ angle_entry 1 1 2 0 0 = 1 := by
  rw [angle_entry_c2_eq]
  norm_num

/-- C2 (amended): in the stated scenario, cell `(0, 0)` yields distance
entry 0 and angle entry 0 — the `as i32` cast truncates `-0.75` toward zero
to `0` (and the `i32 → u32` wrap keeps it `0`), rather than flooring to
`-1` and reducing modulo 2 to `1`. -/
theorem c2_cell_values :
    distance_entry 1 1 2 0 0 = 0 ∧ angle_entry 1 1 2 0 0 = 0 :=
  ⟨distance_entry_c2_eq, angle_entry_c2_eq⟩

/-! ## C6: banded rendering is band-count independent -/

/-- Enumerating `q` successive chunks of `c` indices (the last possibly
short) with their global offsets covers exactly the first
`min total (q * c)` indices. -/
theorem range_chunks (g : ℕ → List ℕ) (c : ℕ) :
    ∀ (q total : ℕ),
      (List.range q).flatMap
          (fun i => (List.range (min c (total - i * c))).flatMap fun k => g (k + i * c))
        = (List.range (min total (q * c))).flatMap g := by
  intro q
  induction q with
  | zero =>
    intro total
    simp
  | succ q ih =>
    intro total
    rw [List.range_succ, List.flatMap_append, ih total]
    have hq : ([q] : List ℕ).flatMap
        (fun i => (List.range (min c (total - i * c))).flatMap fun k => g (k + i * c))
        = (List.range (min c (total - q * c))).flatMap fun k => g (k + q * c) := by
      simp
    rw [hq]
    have hsm : (q + 1) * c = q * c + c := by ring
    rw [hsm]
    set m := q * c with hm
    rcases Nat.le_total total m with hle | hle
    · have h1 : min total m = total := min_eq_left hle
      have h2 : total - m = 0 := Nat.sub_eq_zero_of_le hle
      have h3 : min total (m + c) = total := min_eq_left (by omega)
      rw [h1, h2, h3]
      simp
    · have h1 : min total m = m := min_eq_right hle
      have h2 : min total (m + c) = m + min c (total - m) := by omega
      rw [h1, h2, List.range_add, List.flatMap_append, List.flatMap_map]
      simp [Nat.add_comm]

/-- C6: for any positive band size `c` in pixels (in particular any whole
number of rows, for any band count), the banded rendering of a
`total`-pixel frame is byte-identical to rendering it as one band. -/
theorem draw_banded_eq_single (w : World) (shift shift_look : ℕ × ℕ) (total c : ℕ)
    (hc : 0 < c) :
    draw_banded w shift shift_look total c = render_band w shift shift_look 0 total := by
  unfold draw_banded render_band
  have htot : total ≤ ((total + c - 1) / c) * c := by
    have h1 := Nat.div_add_mod (total + c - 1) c
    have h2 := Nat.mod_lt (total + c - 1) hc
    rw [Nat.mul_comm]
    obtain ⟨m, hm⟩ : ∃ m, c * ((total + c - 1) / c) = m := ⟨_, rfl⟩
    rw [hm] at h1 ⊢
    omega
  have hmain := range_chunks (fun j => render_pixel w shift shift_look j) c
    ((total + c - 1) / c) total
  rw [min_eq_left htot] at hmain
  simpa using hmain

/-- Witness for C6: a 4-pixel frame rendered in bands of 2 pixels equals
the single-band rendering. -/
theorem draw_banded_eq_single_witness :
    0 < 2 ∧ draw_banded W0 (1, 2) (0, 0) 4 2 = render_band W0 (1, 2) (0, 0) 0 4 :=
  ⟨by decide, draw_banded_eq_single W0 (1, 2) (0, 0) 4 2 (by decide)⟩

/-! ## C7: determinism of the render -/

/-- C7: the render is deterministic — two worlds with identical clock
(phase), texture dimensions, texture and projection tables draw
byte-identical frame buffers. -/
theorem draw_deterministic (w₁ w₂ : World)
    (hclock : w₁.clock = w₂.clock)
    (htw : w₁.tex_width = w₂.tex_width) (hth : w₁.tex_height = w₂.tex_height)
    (htex : w₁.texture = w₂.texture)
    (hdist : w₁.distances = w₂.distances) (hang : w₁.angles = w₂.angles) :
    w₁.draw = w₂.draw := by
  have h : w₁ = w₂ := by
    cases w₁
    cases w₂
    simp_all
  rw [h]

/-- Witness for C7 on the two concrete worlds. -/
theorem draw_deterministic_witness :
    W0.clock = W0'.clock ∧ W0.tex_width = W0'.tex_width ∧
    W0.tex_height = W0'.tex_height ∧ W0.texture = W0'.texture ∧
    W0.distances = W0'.distances ∧ W0.angles = W0'.angles ∧
    W0.draw = W0'.draw :=
  ⟨rfl, rfl, rfl, rfl, rfl, rfl, draw_deterministic W0 W0' rfl rfl rfl rfl rfl rfl⟩

/-! ## C8: view-bob offsets stay inside the oversized table -/

/-- The truncating `f64 → i32` cast maps a value of absolute value at most
`B` (with `B` inside the `i32` range) into `[-B, B]`. -/
theorem f64_as_i32_abs_le (r : ℝ) (B : ℕ) (hB : (B : ℤ) ≤ 2 ^ 31 - 1)
    (h : |r| ≤ (B : ℝ)) :
    -(B : ℤ) ≤ f64_as_i32 r ∧ f64_as_i32 r ≤ (B : ℤ) := by
  have h1 : -(B : ℝ) ≤ r := (abs_le.mp h).1
  have h2 : r ≤ (B : ℝ) := (abs_le.mp h).2
  have hB0 : (0 : ℤ) ≤ (B : ℤ) := Int.natCast_nonneg B
  unfold f64_as_i32
  by_cases hr : r < 0
  · rw [if_pos hr]
    have hc1 : -(B : ℤ) ≤ ⌈r⌉ := by
      have hm : ⌈((-(B : ℤ) : ℤ) : ℝ)⌉ ≤ ⌈r⌉ := Int.ceil_mono (by push_cast; linarith)
      rwa [Int.ceil_intCast] at hm
    have hc2 : ⌈r⌉ ≤ (B : ℤ) := by
      have hm : ⌈r⌉ ≤ ⌈(((B : ℤ) : ℤ) : ℝ)⌉ := Int.ceil_mono (by push_cast; linarith)
      rwa [Int.ceil_intCast] at hm
    exact ⟨le_max_of_le_left hc1, max_le hc2 (by omega)⟩
  · rw [if_neg hr]
    push_neg at hr
    have hf1 : (0 : ℤ) ≤ ⌊r⌋ := Int.floor_nonneg.mpr hr
    have hf2 : ⌊r⌋ ≤ (B : ℤ) := by
      have hm : ⌊r⌋ ≤ ⌊(((B : ℤ) : ℤ) : ℝ)⌋ := Int.floor_mono (by push_cast; linarith)
      rwa [Int.floor_intCast] at hm
    exact ⟨le_min (by omega) (by omega), le_trans (min_le_left _ _) hf2⟩

/-- C8: for every phase `t` and output pixel `(x, y)`, the view-bob-shifted
lookup coordinates `x + lookX` and `y + lookY` stay inside the oversized
`2*WIDTH × 2*HEIGHT` projection table. -/
theorem look_shift_in_bounds (t : ℝ) (x y : ℕ) (hx : x < WIDTH) (hy : y < HEIGHT) :
    x + shift_look_x t < 2 * WIDTH ∧ y + shift_look_y t < 2 * HEIGHT := by
  constructor
  · have ha : (0 : ℝ) ≤ ((WIDTH / 2 : ℕ) : ℝ) := by positivity
    have habs : |((WIDTH / 2 : ℕ) : ℝ) * Real.sin t| ≤ ((WIDTH / 2 : ℕ) : ℝ) := by
      rw [abs_mul, abs_of_nonneg ha]
      have hs := Real.abs_sin_le_one t
      nlinarith [abs_nonneg (Real.sin t)]
    have hb := f64_as_i32_abs_le _ (WIDTH / 2) (by norm_num [WIDTH]) habs
    unfold shift_look_x int_as_usize i32_wrap
    norm_num [WIDTH] at hb hx ⊢
    omega
  · have ha : (0 : ℝ) ≤ ((HEIGHT / 2 : ℕ) : ℝ) := by positivity
    have habs : |((HEIGHT / 2 : ℕ) : ℝ) * Real.sin (t * 2)| ≤ ((HEIGHT / 2 : ℕ) : ℝ) := by
      rw [abs_mul, abs_of_nonneg ha]
      have hs := Real.abs_sin_le_one (t * 2)
      nlinarith [abs_nonneg (Real.sin (t * 2))]
    have hb := f64_as_i32_abs_le _ (HEIGHT / 2) (by norm_num [HEIGHT]) habs
    unfold shift_look_y int_as_usize i32_wrap
    norm_num [HEIGHT] at hb hy ⊢
    omega

/-- Witness for C8 at `t = 0`, pixel `(0, 0)`. -/
theorem look_shift_in_bounds_witness :
    0 < WIDTH ∧ 0 < HEIGHT ∧
      (0 + shift_look_x 0 < 2 * WIDTH ∧ 0 + shift_look_y 0 < 2 * HEIGHT) :=
  ⟨by norm_num [WIDTH], by norm_num [HEIGHT],
    look_shift_in_bounds 0 0 0 (by norm_num [WIDTH]) (by norm_num [HEIGHT])⟩

/-! ## C10: texture fetches are in bounds despite the unreduced angle wrap -/

/-- For 256×256 texture dimensions, the renderer's flat texture index is
below 65536. -/
theorem tex_index_lt (w : World) (h1 : w.tex_width = 256) (h2 : w.tex_height = 256)
    (shift shift_look : ℕ × ℕ) (j : ℕ) :
    tex_index w shift shift_look j < 65536 := by
  unfold tex_index tex_coord
  dsimp only
  rw [h1, h2]
  omega

/-- C10: for the world built by `World::new`, every texture fetch in
`render_band` is in bounds (`tex_index < texture.length = 65536`), and the
texture row coordinate computed from a wrapped angle `i32_as_u32 v` is
congruent modulo 256 to the original signed truncated angle plus the shift
— the `i32 → u32` wrap modulo `2^32` is harmless because `256 ∣ 2^32`. -/
theorem texture_fetch_in_bounds (t : ℝ) (shift shift_look : ℕ × ℕ) (j : ℕ)
    (v : ℤ) (s : ℕ) :
    tex_index (World.new t) shift shift_look j < (World.new t).texture.length ∧
    ((tex_coord 256 (i32_as_u32 v) s : ℕ) : ℤ) = (v + (s : ℤ)) % 256 := by
  constructor
  · have hlen : (World.new t).texture.length = 65536 := by
      simp only [World.new]
      simp [generate_texture]
    rw [hlen]
    exact tex_index_lt (World.new t) rfl rfl shift shift_look j
  · unfold tex_coord i32_as_u32
    omega

end Tunnel
